import Mathlib

/-!
Verification development for the DailyLens feed-serving and ranking engine.

The repository snapshot contains the two web clients
(src/frontend/script.js and src/frontend-app/), the run scripts of the
backend and its documentation, but not the backend implementation itself.
Engine-side definitions below are therefore modelled from the
specification document (each such definition carries a doc comment
starting with "Modelled from the spec:"); client-side definitions are
translated directly from src/frontend-app/components/feed-app.tsx,
src/frontend-app/lib/api.ts and src/frontend/script.js.
-/

namespace DailyLens

/-- Interaction action kinds, `view | like | save | share | skip`
(src/unnamed/part_000, `InteractionAction`). -/
inductive Action where
  | view
  | like
  | save
  | share
  | skip
  deriving DecidableEq

/-- Modelled from the spec: an interaction record — user id, article id,
action, dwell seconds, timestamp ("Interaction: user id, article id,
action, dwell seconds, timestamp. Append-only"). -/
structure Interaction where
  user : String
  article : String
  action : Action
  dwell : ℚ
  ts : Nat
  deriving DecidableEq

/-- Modelled from the spec: the slice of a User record that the
entitlement gate reads — identity, the tier's monthly limit
(nullable = unlimited) and the start of the current billing window. -/
structure UserRec where
  id : String
  monthlyLimit : Option Nat
  windowStart : Nat
  deriving DecidableEq

/-- Modelled from the spec: an article record — identity, subject,
creation timestamp, sponsorship flag. -/
structure Article where
  id : String
  subject : String
  title : String
  createdAt : Nat
  sponsored : Bool
  deriving DecidableEq

/-- Modelled from the spec: the State Store — users, articles, the
append-only interaction log (most recent first), the per-user SeenSet
(as a list of (user id, article id) pairs) and the per-user monotonic
state version (as an association list, absent = 0). -/
structure EngineState where
  users : List UserRec
  articles : List Article
  interactions : List Interaction
  seen : List (String × String)
  version : List (String × Nat)
  deriving DecidableEq

/-- Look up the first user record with the given id. -/
def findUser (st : EngineState) (u : String) : Option UserRec :=
  st.users.find? (fun r => r.id = u)

/-- Modelled from the spec: `currentVersion(user)` — the user's monotonic
state version counter, 0 before any write. -/
def currentVersion (st : EngineState) (u : String) : Nat :=
  match st.version.find? (fun p => p.1 = u) with
  | some p => p.2
  | none => 0

/-- Modelled from the spec: `monthly_used`, recomputed from the
interaction counts within the current billing window on every read
(an interaction counts when its user matches and its timestamp is not
before the user's billing window start). -/
def monthlyUsed (st : EngineState) (u : String) : Nat :=
  match findUser st u with
  | none => 0
  | some r =>
      (st.interactions.filter
        (fun i => i.user = u ∧ r.windowStart ≤ i.ts)).length

/-- Modelled from the spec: the error taxonomy of the interaction write
path — entitlement exhaustion is reported distinctly from validation
failures and from unknown-user lookups. -/
inductive RejectReason where
  | entitlementExceeded
  | validationError
  | notFound
  deriving DecidableEq

/-- Result of an interaction write. -/
inductive WriteResult where
  | ok
  | rejected (r : RejectReason)
  deriving DecidableEq

/-- Modelled from the spec: bump the user's state version counter. -/
def bumpVersion (version : List (String × Nat)) (u : String) : List (String × Nat) :=
  match version.find? (fun p => p.1 = u) with
  | some p => (u, p.2 + 1) :: version.filter (fun q => ¬ q.1 = u)
  | none => (u, 1) :: version

/-- Modelled from the spec: the committed part of `recordInteraction` —
interaction append, seen-mark and version bump as one logical unit. -/
def commitInteraction (st : EngineState) (i : Interaction) : EngineState :=
  { st with
    interactions := i :: st.interactions
    seen := (i.user, i.article) :: st.seen
    version := bumpVersion st.version i.user }

/-- Modelled from the spec: `recordInteraction(user, article, action,
dwell) -> ok | Rejected(...)`.  Unknown users are rejected with a
lookup failure; when the tier limit is finite and the current month's
used count has reached it, the write is rejected with the distinct
`entitlementExceeded` error and the state is returned unchanged (no
partial side effects); otherwise the write commits. -/
def recordInteraction (st : EngineState) (i : Interaction) :
    EngineState × WriteResult :=
  match findUser st i.user with
  | none => (st, .rejected .notFound)
  | some r =>
      match r.monthlyLimit with
      | some l =>
          if l ≤ monthlyUsed st i.user then
            (st, .rejected .entitlementExceeded)
          else
            (commitInteraction st i, .ok)
      | none => (commitInteraction st i, .ok)

/-- Apply a sequence of interaction writes, keeping the state of each
step (accepted or rejected). -/
def applyWrites (st : EngineState) (is : List Interaction) : EngineState :=
  is.foldl (fun s i => (recordInteraction s i).1) st

/-- Whether a write passes the entitlement gate: the user exists and
either the tier is unlimited or the in-window used count is still below
the finite limit. -/
def writeAccepted (st : EngineState) (i : Interaction) : Bool :=
  match findUser st i.user with
  | none => false
  | some r =>
      match r.monthlyLimit with
      | some l => decide (monthlyUsed st i.user < l)
      | none => true

/-- The state component of a write: the committed state when the gate
accepts, the unchanged input state otherwise. -/
theorem recordInteraction_fst (st : EngineState) (i : Interaction) :
    (recordInteraction st i).1 =
      if writeAccepted st i then commitInteraction st i else st := by
  unfold recordInteraction writeAccepted
  cases findUser st i.user with
  | none => simp
  | some r =>
      cases h : r.monthlyLimit with
      | none => simp [h]
      | some l =>
          simp only [h]
          by_cases hle : l ≤ monthlyUsed st i.user
          · simp [hle, Nat.not_lt.mpr hle]
          · simp [hle, Nat.lt_of_not_le hle]

/-- A write never changes the user table. -/
theorem recordInteraction_users (st : EngineState) (i : Interaction) :
    ((recordInteraction st i).1).users = st.users := by
  rw [recordInteraction_fst]
  by_cases h : writeAccepted st i <;> simp [h, commitInteraction]

/-- A write never changes user lookups. -/
theorem recordInteraction_findUser (st : EngineState) (i : Interaction)
    (u : String) :
    findUser (recordInteraction st i).1 u = findUser st u := by
  unfold findUser
  rw [recordInteraction_users]

/-- Committing a write raises any user's in-window used count by at most
one. -/
theorem monthlyUsed_commit_le (st : EngineState) (i : Interaction)
    (u : String) :
    monthlyUsed (commitInteraction st i) u ≤ monthlyUsed st u + 1 := by
  unfold monthlyUsed findUser commitInteraction
  simp only
  cases st.users.find? (fun r => r.id = u) with
  | none => simp
  | some r =>
      simp only [List.filter_cons]
      by_cases hc : i.user = u ∧ r.windowStart ≤ i.ts <;>
        simp [hc, Nat.le_succ]

/-- Committing a write by another user leaves this user's used count
unchanged. -/
theorem monthlyUsed_commit_ne (st : EngineState) (i : Interaction)
    (u : String) (hne : ¬ i.user = u) :
    monthlyUsed (commitInteraction st i) u = monthlyUsed st u := by
  unfold monthlyUsed findUser commitInteraction
  simp only
  cases st.users.find? (fun r => r.id = u) with
  | none => simp
  | some r =>
      simp only [List.filter_cons]
      have : ¬ (i.user = u ∧ r.windowStart ≤ i.ts) := fun hc => hne hc.1
      simp [this]

/-- A single write preserves `monthlyUsed ≤ limit` for a user whose tier
has the finite monthly limit `l`. -/
theorem recordInteraction_respects_limit (st : EngineState)
    (i : Interaction) (u : String) (r : UserRec) (l : Nat)
    (hu : findUser st u = some r) (hl : r.monthlyLimit = some l)
    (hinv : monthlyUsed st u ≤ l) :
    monthlyUsed (recordInteraction st i).1 u ≤ l := by
  rw [recordInteraction_fst]
  by_cases hacc : writeAccepted st i
  · simp only [hacc, if_true]
    by_cases hiu : i.user = u
    · have hlt : monthlyUsed st i.user < l := by
        unfold writeAccepted at hacc
        rw [hiu, hu] at hacc
        simp only [hl, decide_eq_true_eq] at hacc
        rw [hiu]
        exact hacc
      have hle := monthlyUsed_commit_le st i u
      rw [hiu] at hlt
      omega
    · rw [monthlyUsed_commit_ne st i u hiu]
      exact hinv
  · simp [hacc, hinv]

/-- C1: for every user whose tier has a finite monthly limit, after any
sequence of interaction writes (each either accepted or rejected) the
entitlement satisfies `monthly_used ≤ monthly_limit`: no successful
interaction write ever makes `monthly_used` exceed `monthly_limit`. -/
theorem monthlyUsed_le_limit_after_writes (st : EngineState)
    (is : List Interaction) (u : String) (r : UserRec) (l : Nat)
    (hu : findUser st u = some r) (hl : r.monthlyLimit = some l)
    (hinv : monthlyUsed st u ≤ l) :
    monthlyUsed (applyWrites st is) u ≤ l := by
  induction is generalizing st with
  | nil => simpa [applyWrites] using hinv
  | cons i rest ih =>
      have hstep := recordInteraction_respects_limit st i u r l hu hl hinv
      have hu2 : findUser (recordInteraction st i).1 u = some r := by
        rw [recordInteraction_findUser]; exact hu
      have := ih (recordInteraction st i).1 hu2 hstep
      simpa [applyWrites] using this
/-- C2: for a user with a finite monthly limit whose `monthly_used` has
reached that limit, a subsequent interaction write is rejected with the
distinct `entitlementExceeded` error (not a validation or lookup
error), and the rejection has no side effects: the interaction log, the
SeenSet, the state version and `monthly_used` are all unchanged. -/
theorem entitlement_rejection_no_side_effects (st : EngineState)
    (i : Interaction) (r : UserRec) (l : Nat)
    (hu : findUser st i.user = some r) (hl : r.monthlyLimit = some l)
    (hfull : l ≤ monthlyUsed st i.user) :
    recordInteraction st i = (st, .rejected .entitlementExceeded) ∧
    (recordInteraction st i).1.interactions = st.interactions ∧
    (recordInteraction st i).1.seen = st.seen ∧
    (recordInteraction st i).1.version = st.version ∧
    monthlyUsed (recordInteraction st i).1 i.user = monthlyUsed st i.user := by
  have hmain : recordInteraction st i = (st, .rejected .entitlementExceeded) := by
    unfold recordInteraction
    rw [hu]
    simp only [hl]
    simp [hfull]
  refine ⟨hmain, ?_, ?_, ?_, ?_⟩ <;> rw [hmain]

/-- Scenario user `u1`: free tier with monthly limit 5, billing window
starting at time 0. -/
def u1Rec : UserRec :=
  { id := "u1", monthlyLimit := some 5, windowStart := 0 }

/-- Scenario initial state: just the user `u1`, no interactions. -/
def scenarioState0 : EngineState :=
  { users := [u1Rec], articles := [], interactions := [], seen := [],
    version := [] }

/-- A `like` interaction by `u1` on the given article at the given time. -/
def likeAt (a : String) (t : Nat) : Interaction :=
  { user := "u1", article := a, action := .like, dwell := 2, ts := t }

/-- Five accepted `like` writes by `u1`. -/
def scenarioWrites : List Interaction :=
  [likeAt "a1" 1, likeAt "a2" 2, likeAt "a3" 3, likeAt "a4" 4,
   likeAt "a5" 5]

/-- The state after the five accepted `like` writes. -/
def scenarioState5 : EngineState :=
  applyWrites scenarioState0 scenarioWrites

/-- Witness for C1: user `u1` with limit 5 stays at
`monthly_used ≤ 5` across a six-write sequence (five accepted, one
rejected). -/
theorem monthlyUsed_le_limit_after_writes_witness :
    findUser scenarioState0 "u1" = some u1Rec ∧
    u1Rec.monthlyLimit = some 5 ∧
    monthlyUsed scenarioState0 "u1" ≤ 5 ∧
    monthlyUsed
      (applyWrites scenarioState0 (scenarioWrites ++ [likeAt "a6" 6]))
      "u1" ≤ 5 :=
  ⟨by decide, by decide, by decide,
    monthlyUsed_le_limit_after_writes scenarioState0
      (scenarioWrites ++ [likeAt "a6" 6]) "u1" u1Rec 5
      (by decide) (by decide) (by decide)⟩

/-- Witness for C2: after the five accepted `like` writes, the sixth
write by `u1` is rejected with `entitlementExceeded` and the state is
unchanged. -/
theorem entitlement_rejection_witness :
    findUser scenarioState5 (likeAt "a6" 6).user = some u1Rec ∧
    u1Rec.monthlyLimit = some 5 ∧
    5 ≤ monthlyUsed scenarioState5 (likeAt "a6" 6).user ∧
    recordInteraction scenarioState5 (likeAt "a6" 6) =
      (scenarioState5, .rejected .entitlementExceeded) :=
  ⟨by decide, by decide, by decide,
    (entitlement_rejection_no_side_effects scenarioState5 (likeAt "a6" 6)
      u1Rec 5 (by decide) (by decide) (by decide)).1⟩
/-- Modelled from the spec: an interaction event carried by the event
pipeline from the synchronous write path to the statistics consumer. -/
structure Event where
  user : String
  article : String
  action : Action
  dwell : ℚ
  deriving DecidableEq

/-- Modelled from the spec: the in-process bounded event queue (oldest
event at the front) together with its capacity and the drop/processed
counters exposed to monitoring. -/
structure PipelineState where
  queue : List Event
  capacity : Nat
  dropped : Nat
  processed : Nat
  deriving DecidableEq

/-- Modelled from the spec: `publish(event)` — enqueue at the back; on
overflow the oldest unconsumed events (at the front) are dropped and the
drop counter increments; publishing itself never fails or blocks. -/
def publish (p : PipelineState) (e : Event) : PipelineState :=
  let combined := p.queue ++ [e]
  let overflow := combined.length - p.capacity
  { p with
    queue := combined.drop overflow
    dropped := p.dropped + overflow }

/-- Publishing keeps the queue within its bound. -/
theorem publish_length_le (p : PipelineState) (e : Event)
    (hb : p.queue.length ≤ p.capacity) :
    (publish p e).queue.length ≤ p.capacity := by
  unfold publish
  simp only [List.length_drop, List.length_append, List.length_cons]
  omega
/-- Modelled from the spec: a pure string hash used to seed the
deterministic jitter (never a stateful random generator). -/
def strHash (s : String) : Nat :=
  s.foldl (fun h c => (h * 31 + c.toNat) % 1000003) 7

/-- Modelled from the spec: deterministic tie-breaking jitter — a pure
hash of (user id, article id, salt) mapped into [0,1), for stable
repeatability across requests with identical state. -/
def jitter (salt : Nat) (u a : String) : ℚ :=
  (((strHash (u ++ "|" ++ a) + salt) % 1000 : Nat) : ℚ) / 1000

/-- Modelled from the spec: per-action affinity weight — negative-leaning
for skip, positive for view/like/save/share. -/
def actionWeight : Action → ℚ
  | .skip => -1
  | .view => 1/2
  | .like => 1
  | .save => 3/2
  | .share => 2

/-- Subject of an article id in the article pool (empty for unknown). -/
def subjectOf (arts : List Article) (aid : String) : String :=
  match arts.find? (fun a => a.id = aid) with
  | some a => a.subject
  | none => ""

/-- Subject taxonomy realized in the article pool. -/
def subjectsOf (st : EngineState) : List String :=
  (st.articles.map (fun a => a.subject)).dedup

/-- Modelled from the spec: raw per-subject affinity from the interaction
history — each action carries its weight, positive actions are
dwell-scaled, and the k-th most recent interaction is decayed by
1/(k+1) so recent interactions dominate. -/
def rawAffinity (st : EngineState) (u subj : String) : ℚ :=
  (st.interactions.enum.map (fun p =>
    if p.2.user = u ∧ subjectOf st.articles p.2.article = subj then
      (actionWeight p.2.action *
          (if 0 < actionWeight p.2.action then 1 + p.2.dwell / 60 else 1)) /
        ((p.1 : ℚ) + 1)
    else 0)).sum

/-- Modelled from the spec: `affinityFor(user)` — raw affinities clipped
at zero and normalized across subjects into [0,1]. -/
def affinityFor (st : EngineState) (u subj : String) : ℚ :=
  let raw := max 0 (rawAffinity st u subj)
  let total := ((subjectsOf st).map (fun s => max 0 (rawAffinity st u s))).sum
  if total = 0 then 0 else raw / total

/-- Per-(user, subject) exploration statistics: pull count and
cumulative reward, updated only by the pipeline consumer. -/
def StatTable : Type := List ((String × String) × (Nat × ℚ))

instance : DecidableEq StatTable := by
  unfold StatTable
  infer_instance

/-- Pull count and cumulative reward for a (user, subject) pair, zero
when unobserved. -/
def statFor (tbl : StatTable) (u s : String) : Nat × ℚ :=
  match tbl.find? (fun e => e.1 = (u, s)) with
  | some e => e.2
  | none => (0, 0)

/-- Total pulls across the subject taxonomy for a user. -/
def totalPullsTab (tbl : StatTable) (st : EngineState) (u : String) : Nat :=
  ((subjectsOf st).map (fun s => (statFor tbl u s).1)).sum

/-- Modelled from the spec: the serving-side exploration score in ℚ —
mean reward plus an uncertainty bonus that grows with the user's total
pulls and shrinks with the subject's own pull count.  The authoritative
backend is not in the repository; the real-valued
sqrt(ln(total+1)/(pulls+1)) bonus of §4.3 is rendered here with a
rational integer-sqrt surrogate (the serving-layer claims settled
against this model depend only on determinism and on the seen-filter,
not on the numeric bonus values; the exact real-valued form is treated
separately by `explorationScore`). -/
def explorationScoreQ (tbl : StatTable) (st : EngineState) (u s : String) : ℚ :=
  let pulls := (statFor tbl u s).1
  let rew := (statFor tbl u s).2
  let mean := if pulls = 0 then 0 else rew / (pulls : ℚ)
  mean +
    ((Nat.sqrt (1024 * (totalPullsTab tbl st u + 1) / (pulls + 1)) : Nat) : ℚ) / 32

/-- Modelled from the spec: ranking weights w1..w4 (tunable parameters,
fixed here at default values). -/
def rankWeights : ℚ × ℚ × ℚ × ℚ :=
  (1, 1/2, 1/4, 1/20)

/-- Newest creation timestamp in the article pool. -/
def newestCreated (st : EngineState) : Nat :=
  (st.articles.map (fun a => a.createdAt)).foldr max 0

/-- Modelled from the spec: recency component — newer articles score
higher, decaying with age relative to the newest pool item. -/
def recencyScore (st : EngineState) (a : Article) : ℚ :=
  1 / (((newestCreated st - a.createdAt : Nat) : ℚ) + 1)

/-- Modelled from the spec: the per-article rank score
`w1*affinity + w2*explorationScore + w3*recency + w4*jitter`. -/
def articleScore (tbl : StatTable) (st : EngineState) (u : String)
    (a : Article) : ℚ :=
  rankWeights.1 * affinityFor st u a.subject +
    rankWeights.2.1 * explorationScoreQ tbl st u a.subject +
    rankWeights.2.2.1 * recencyScore st a +
    rankWeights.2.2.2 * jitter 0 u a.id

/-- Ordering of scored articles: strictly higher score first, ties broken
by article id for a fully deterministic ordering. -/
def rankBefore (x y : Article × ℚ) : Bool :=
  y.2 < x.2 ∨ (x.2 = y.2 ∧ x.1.id ≤ y.1.id)

/-- Insert a scored article into an already ranked list. -/
def insertRanked (x : Article × ℚ) : List (Article × ℚ) → List (Article × ℚ)
  | [] => [x]
  | y :: ys => if rankBefore x y then x :: y :: ys else y :: insertRanked x ys

/-- Insertion sort by `rankBefore`. -/
def sortRanked : List (Article × ℚ) → List (Article × ℚ)
  | [] => []
  | x :: xs => insertRanked x (sortRanked xs)

/-- Membership is preserved by ranked insertion. -/
theorem mem_insertRanked (x y : Article × ℚ) (l : List (Article × ℚ)) :
    y ∈ insertRanked x l ↔ y = x ∨ y ∈ l := by
  induction l with
  | nil => simp [insertRanked]
  | cons z zs ih =>
      unfold insertRanked
      by_cases h : rankBefore x z
      · simp [h]
      · simp [h, ih]
        tauto

/-- Membership is preserved by ranked sorting. -/
theorem mem_sortRanked (y : Article × ℚ) (l : List (Article × ℚ)) :
    y ∈ sortRanked l ↔ y ∈ l := by
  induction l with
  | nil => simp [sortRanked]
  | cons z zs ih =>
      unfold sortRanked
      rw [mem_insertRanked, ih]
      simp

/-- Modelled from the spec: build the user's full ranked candidate
ordering (the RankBundle value) — candidates absent from the user's
SeenSet are scored with `articleScore` and ordered by it.  The
bucket-mix reassembly and sponsored-slot insertion of §4.4 reorder and
interleave items drawn from this same unseen candidate set; they are not
modelled, as the claims settled here depend on the seen-filter and on
determinism, not on the realized interleaving. -/
def buildBundle (tbl : StatTable) (st : EngineState) (u : String) :
    List Article :=
  let candidates := st.articles.filter (fun a => ¬ (u, a.id) ∈ st.seen)
  (sortRanked (candidates.map (fun a => (a, articleScore tbl st u a)))).map
    (fun p => p.1)

/-- Every article in a freshly built bundle is unseen by the user. -/
theorem buildBundle_unseen (tbl : StatTable) (st : EngineState)
    (u : String) (a : Article) (ha : a ∈ buildBundle tbl st u) :
    ¬ (u, a.id) ∈ st.seen := by
  unfold buildBundle at ha
  simp only [List.mem_map] at ha
  obtain ⟨p, hp, hpa⟩ := ha
  rw [mem_sortRanked] at hp
  simp only [List.mem_map] at hp
  obtain ⟨b, hb, hbp⟩ := hp
  rw [List.mem_filter] at hb
  have hba : b = a := by
    rw [← hbp] at hpa
    exact hpa
  subst hba
  simpa using hb.2
/-- Modelled from the spec: the full serving state — the State Store,
the exploration statistics table, the precomputed rank bundles keyed by
(user id, state version), the feed cache keyed by (user id, offset,
limit, state version), and the event pipeline.  Cache invalidation is
implicit: all lookups are keyed on the current state version, so stale
entries become unreachable rather than being actively evicted. -/
structure SysState where
  engine : EngineState
  stats : StatTable
  bundles : List ((String × Nat) × List Article)
  cache : List ((String × Nat × Nat × Nat) × List Article)
  pipeline : PipelineState
  deriving DecidableEq

/-- Modelled from the spec: `getPage(user, offset, limit)` — look the
page up in the cache under the current state version; on miss, look up
or build the rank bundle for (user, current version), slice
[offset, offset+limit), and memoize both the bundle and the page. -/
def getPage (sys : SysState) (u : String) (off lim : Nat) :
    List Article × SysState :=
  let v := currentVersion sys.engine u
  match sys.cache.find? (fun e => e.1 = (u, off, lim, v)) with
  | some e => (e.2, sys)
  | none =>
      let bundle :=
        match sys.bundles.find? (fun e => e.1 = (u, v)) with
        | some e => e.2
        | none => buildBundle sys.stats sys.engine u
      let page := (bundle.drop off).take lim
      (page,
        { sys with
          cache := ((u, off, lim, v), page) :: sys.cache
          bundles :=
            match sys.bundles.find? (fun e => e.1 = (u, v)) with
            | some _ => sys.bundles
            | none => ((u, v), bundle) :: sys.bundles })

/-- Modelled from the spec: the explore endpoint's catalog query — the
candidate pool filtered by the optional subject, excluding the user's
seen articles unless `include_seen` is requested, then paginated (query
text search over title/summary is an orthogonal filter and is not
modelled). -/
def explorePage (sys : SysState) (u : String) (subject : String)
    (includeSeen : Bool) (off lim : Nat) : List Article :=
  let bySubject :=
    sys.engine.articles.filter
      (fun a => subject = "" ∨ a.subject = subject)
  let visible :=
    if includeSeen then bySubject
    else bySubject.filter (fun a => ¬ (u, a.id) ∈ sys.engine.seen)
  (visible.drop off).take lim

/-- Modelled from the spec: the interaction event built from an accepted
write. -/
def eventOf (i : Interaction) : Event :=
  { user := i.user, article := i.article, action := i.action,
    dwell := i.dwell }

/-- Modelled from the spec: the interaction request path — entitlement
gate and synchronous State Store write first; only when the write
succeeds is the event published to the pipeline.  A full queue is
absorbed by `publish` (drop-and-count), never by blocking or failing the
user-facing write. -/
def handleInteraction (sys : SysState) (i : Interaction) :
    SysState × WriteResult :=
  match recordInteraction sys.engine i with
  | (engine2, .ok) =>
      ({ sys with
          engine := engine2
          pipeline := publish sys.pipeline (eventOf i) }, .ok)
  | (engine2, r) => ({ sys with engine := engine2 }, r)

/-- Modelled from the spec: per-action reward applied by the pipeline
consumer to the exploration statistics. -/
def rewardOf (e : Event) : ℚ :=
  max 0 (actionWeight e.action)

/-- Modelled from the spec: `consume()` — dequeue the oldest event and
apply it to the exploration statistics exactly once (pull count
increment and reward accumulation for the event's (user, subject)). -/
def consume (tbl : StatTable) (arts : List Article) (p : PipelineState) :
    StatTable × PipelineState :=
  match p.queue with
  | [] => (tbl, p)
  | e :: rest =>
      let key := (e.user, subjectOf arts e.article)
      let pulls := (statFor tbl key.1 key.2).1
      let rew := (statFor tbl key.1 key.2).2
      ((key, (pulls + 1, rew + rewardOf e)) ::
          List.filter (fun x => ¬ x.1 = key) tbl,
        { p with queue := rest, processed := p.processed + 1 })

/-- C6: the event queue is bounded; publishing onto a full queue drops
the single oldest unconsumed event, strictly increases the
`events_dropped` counter, still accepts the newly published event (which
becomes the newest queue entry), and the synchronous interaction write
that triggered the publish is unaffected: its result is exactly the
State Store write result, for every pipeline state. -/
theorem publish_overflow_drops_oldest (p : PipelineState) (e : Event)
    (hfull : p.queue.length = p.capacity) (hcap : 0 < p.capacity) :
    (publish p e).dropped = p.dropped + 1 ∧
    (publish p e).queue = p.queue.tail ++ [e] ∧
    (publish p e).queue.length = p.capacity ∧
    e ∈ (publish p e).queue ∧
    (∀ sys i, (handleInteraction sys i).2 = (recordInteraction sys.engine i).2) := by
  have hq : p.queue ≠ [] := by
    intro h
    rw [h] at hfull
    simp at hfull
    omega
  obtain ⟨a, as, hqe⟩ := List.exists_cons_of_ne_nil hq
  have hlen : as.length + 1 = p.capacity := by
    rw [hqe] at hfull
    simpa using hfull
  have hover : ((a :: as) ++ [e]).length - p.capacity = 1 := by
    simp
    omega
  refine ⟨?_, ?_, ?_, ?_, ?_⟩
  · simp only [publish, hqe]
    rw [hover]
  · simp only [publish, hqe]
    rw [hover]
    simp
  · simp only [publish, hqe]
    rw [hover]
    simp
    omega
  · simp only [publish, hqe]
    rw [hover]
    simp
  · intro sys i
    unfold handleInteraction
    cases hr : recordInteraction sys.engine i with
    | mk e2 res =>
        cases res <;> simp

/-- A concrete full pipeline for the C6 witness. -/
def fullPipeline : PipelineState :=
  { queue := [{ user := "u1", article := "a1", action := .like, dwell := 1 },
              { user := "u1", article := "a2", action := .view, dwell := 1 }],
    capacity := 2, dropped := 0, processed := 0 }

/-- Witness for C6: publishing a third event onto the saturated
two-slot queue drops the oldest event, bumps the drop counter from 0 to
1, and keeps the new event. -/
theorem publish_overflow_witness :
    fullPipeline.queue.length = fullPipeline.capacity ∧
    0 < fullPipeline.capacity ∧
    (publish fullPipeline
        { user := "u1", article := "a3", action := .save, dwell := 1 }).dropped =
      fullPipeline.dropped + 1 :=
  ⟨by decide, by decide,
    (publish_overflow_drops_oldest fullPipeline
      { user := "u1", article := "a3", action := .save, dwell := 1 }
      (by decide) (by decide)).1⟩
/-- A feed read never changes the State Store. -/
theorem getPage_engine (sys : SysState) (u : String) (off lim : Nat) :
    (getPage sys u off lim).2.engine = sys.engine := by
  simp only [getPage]
  cases h : sys.cache.find?
      (fun e => e.1 = (u, off, lim, currentVersion sys.engine u)) with
  | some e => simp
  | none =>
      cases hb : sys.bundles.find?
          (fun e => e.1 = (u, currentVersion sys.engine u)) with
      | some b => simp
      | none => simp

/-- After any feed call, the cache holds the served page under the
current-version key. -/
theorem getPage_memo (sys : SysState) (u : String) (off lim : Nat) :
    ∃ k, (getPage sys u off lim).2.cache.find?
        (fun e => e.1 = (u, off, lim, currentVersion sys.engine u)) =
      some (k, (getPage sys u off lim).1) := by
  simp only [getPage]
  cases h : sys.cache.find?
      (fun e => e.1 = (u, off, lim, currentVersion sys.engine u)) with
  | some e =>
      refine ⟨e.1, ?_⟩
      simp [h]
  | none =>
      refine ⟨(u, off, lim, currentVersion sys.engine u), ?_⟩
      simp only
      rw [List.find?_cons_of_pos]
      simp

/-- C4: with no intervening interaction write, two sequential feed calls
for the same user at the same offset and limit return identical item
sequences — same articles, same order, same cardinality.  The ranking
(jitter included) is a pure function of the user's state at a fixed
state version, and the page memoized by the first call is exactly what
the second call serves. -/
theorem feed_page_stable (sys : SysState) (u : String) (off lim : Nat) :
    (getPage (getPage sys u off lim).2 u off lim).1 =
      (getPage sys u off lim).1 := by
  obtain ⟨k, hk⟩ := getPage_memo sys u off lim
  have hE := getPage_engine sys u off lim
  generalize hr : getPage sys u off lim = r at hk hE ⊢
  conv_lhs => rw [getPage]
  rw [hE, hk]
/-- Searching a filtered list finds the same entry when the search
predicate implies the filter predicate. -/
theorem find?_filter_of_imp {α : Type} (l : List α) (p q : α → Bool)
    (h : ∀ x, p x = true → q x = true) :
    (l.filter q).find? p = l.find? p := by
  induction l with
  | nil => simp
  | cons a l ih =>
      by_cases hq : q a
      · by_cases hp : p a
        · simp [hq, hp, List.filter_cons, List.find?_cons]
        · simp only [List.filter_cons, hq, if_true, List.find?_cons]
          simp only [List.find?_cons] at ih ⊢
          cases hpa : p a with
          | true => exact absurd hpa hp
          | false => simpa [hpa] using ih
      · have hp : p a = false := by
          cases hpa : p a with
          | true => exact absurd (h a hpa) hq
          | false => rfl
        simp only [List.filter_cons, List.find?_cons, hp]
        cases hqa : q a with
        | true => exact absurd hqa hq
        | false => simpa [hp] using ih

/-- A committed write bumps the writing user's state version by one. -/
theorem currentVersion_commit_self (st : EngineState) (i : Interaction) :
    currentVersion (commitInteraction st i) i.user =
      currentVersion st i.user + 1 := by
  unfold currentVersion commitInteraction bumpVersion
  simp only
  cases h : st.version.find? (fun p => p.1 = i.user) with
  | none => simp [h, List.find?_cons]
  | some p => simp [h, List.find?_cons]

/-- A committed write leaves every other user's state version
unchanged. -/
theorem currentVersion_commit_ne (st : EngineState) (i : Interaction)
    (u : String) (hne : ¬ u = i.user) :
    currentVersion (commitInteraction st i) u = currentVersion st u := by
  unfold currentVersion commitInteraction bumpVersion
  simp only
  cases h : st.version.find? (fun p => p.1 = i.user) with
  | none =>
      simp only [List.find?_cons]
      have : (decide ((i.user, 1).1 = u)) = false := by
        simp
        intro hc
        exact hne hc.symm
      simp [this]
  | some p =>
      simp only [List.find?_cons]
      have hhead : (decide ((i.user, p.2 + 1).1 = u)) = false := by
        simp
        intro hc
        exact hne hc.symm
      simp only [hhead]
      rw [find?_filter_of_imp]
      intro x hx
      simp at hx ⊢
      intro hc
      rw [hc] at hx
      exact hne hx.symm

/-- A committed write never lowers any user's state version. -/
theorem currentVersion_commit_le (st : EngineState) (i : Interaction)
    (u : String) :
    currentVersion st u ≤ currentVersion (commitInteraction st i) u := by
  by_cases h : u = i.user
  · subst h
    rw [currentVersion_commit_self]
    omega
  · rw [currentVersion_commit_ne st i u h]

/-- The written (user, article) pair is in the SeenSet after commit. -/
theorem commit_seen_mem (st : EngineState) (i : Interaction) :
    (i.user, i.article) ∈ (commitInteraction st i).seen := by
  unfold commitInteraction
  simp

/-- A write reports `ok` exactly when the entitlement gate accepted. -/
theorem recordInteraction_snd_ok (st : EngineState) (i : Interaction) :
    (recordInteraction st i).2 = .ok ↔ writeAccepted st i = true := by
  unfold recordInteraction writeAccepted
  cases findUser st i.user with
  | none => simp
  | some r =>
      cases h : r.monthlyLimit with
      | none => simp [h]
      | some l =>
          simp only [h]
          by_cases hle : l ≤ monthlyUsed st i.user
          · simp [hle, Nat.not_lt.mpr hle]
          · simp [hle, Nat.lt_of_not_le hle]

/-- The state produced by an interaction request: on acceptance the
engine advances to the committed state and the event is published; on
rejection only the (unchanged) engine is carried over. -/
theorem handleInteraction_fst (sys : SysState) (i : Interaction) :
    (handleInteraction sys i).1 =
      if (recordInteraction sys.engine i).2 = .ok then
        { sys with
          engine := (recordInteraction sys.engine i).1
          pipeline := publish sys.pipeline (eventOf i) }
      else { sys with engine := (recordInteraction sys.engine i).1 } := by
  unfold handleInteraction
  cases hr : recordInteraction sys.engine i with
  | mk e2 res => cases res <;> simp [hr]
/-- Well-formedness of a serving state, as maintained by every run that
starts from empty caches: cached pages and bundles carry versions no
newer than the owner's current state version, and any entry keyed at the
owner's current version contains only articles outside the owner's
SeenSet. -/
def Wf (sys : SysState) : Prop :=
  (∀ e ∈ sys.cache, e.1.2.2.2 ≤ currentVersion sys.engine e.1.1) ∧
  (∀ e ∈ sys.bundles, e.1.2 ≤ currentVersion sys.engine e.1.1) ∧
  (∀ e ∈ sys.cache, e.1.2.2.2 = currentVersion sys.engine e.1.1 →
    ∀ a ∈ e.2, ¬ (e.1.1, a.id) ∈ sys.engine.seen) ∧
  (∀ e ∈ sys.bundles, e.1.2 = currentVersion sys.engine e.1.1 →
    ∀ a ∈ e.2, ¬ (e.1.1, a.id) ∈ sys.engine.seen)

/-- In a well-formed state, a feed page contains only articles outside
the user's SeenSet. -/
theorem getPage_excludes_seen (sys : SysState) (u : String)
    (off lim : Nat) (hwf : Wf sys) :
    ∀ a ∈ (getPage sys u off lim).1, ¬ (u, a.id) ∈ sys.engine.seen := by
  obtain ⟨hvc, hvb, hcc, hcb⟩ := hwf
  intro a ha
  simp only [getPage] at ha
  cases h : sys.cache.find?
      (fun e => e.1 = (u, off, lim, currentVersion sys.engine u)) with
  | some e =>
      rw [h] at ha
      simp only at ha
      have hmem := List.mem_of_find?_eq_some h
      have hkey : e.1 = (u, off, lim, currentVersion sys.engine u) := by
        have := List.find?_some h
        simpa using this
      have he1 : e.1.1 = u := by rw [hkey]
      have hever : e.1.2.2.2 = currentVersion sys.engine e.1.1 := by
        rw [hkey]
      have := hcc e hmem hever a ha
      rw [he1] at this
      exact this
  | none =>
      rw [h] at ha
      simp only at ha
      have hsub : a ∈
          (match sys.bundles.find?
              (fun e => e.1 = (u, currentVersion sys.engine u)) with
            | some e => e.2
            | none => buildBundle sys.stats sys.engine u) :=
        List.mem_of_mem_drop (List.mem_of_mem_take ha)
      cases hb : sys.bundles.find?
          (fun e => e.1 = (u, currentVersion sys.engine u)) with
      | some e =>
          rw [hb] at hsub
          simp only at hsub
          have hmem := List.mem_of_find?_eq_some hb
          have hkey : e.1 = (u, currentVersion sys.engine u) := by
            have := List.find?_some hb
            simpa using this
          have he1 : e.1.1 = u := by rw [hkey]
          have hever : e.1.2 = currentVersion sys.engine e.1.1 := by
            rw [hkey]
          have := hcb e hmem hever a hsub
          rw [he1] at this
          exact this
      | none =>
          rw [hb] at hsub
          simp only at hsub
          exact buildBundle_unseen sys.stats sys.engine u a hsub
/-- A feed read preserves well-formedness: the entries it memoizes are
keyed at the current version and contain only unseen articles. -/
theorem getPage_Wf (sys : SysState) (u : String) (off lim : Nat)
    (hwf : Wf sys) : Wf (getPage sys u off lim).2 := by
  have hpage := getPage_excludes_seen sys u off lim hwf
  obtain ⟨hvc, hvb, hcc, hcb⟩ := hwf
  simp only [getPage] at hpage ⊢
  cases h : sys.cache.find?
      (fun e => e.1 = (u, off, lim, currentVersion sys.engine u)) with
  | some e => exact ⟨hvc, hvb, hcc, hcb⟩
  | none =>
      rw [h] at hpage
      simp only at hpage ⊢
      cases hb : sys.bundles.find?
          (fun e => e.1 = (u, currentVersion sys.engine u)) with
      | some b =>
          rw [hb] at hpage
          refine ⟨?_, ?_, ?_, ?_⟩
          · intro e he
            simp only [List.mem_cons] at he
            cases he with
            | inl hh => subst hh; simp
            | inr ht => exact hvc e ht
          · intro e he
            exact hvb e he
          · intro e he hever a ha
            simp only [List.mem_cons] at he
            cases he with
            | inl hh =>
                subst hh
                simp only at ha
                exact hpage a ha
            | inr ht => exact hcc e ht hever a ha
          · intro e he hever a ha
            exact hcb e he hever a ha
      | none =>
          rw [hb] at hpage
          refine ⟨?_, ?_, ?_, ?_⟩
          · intro e he
            simp only [List.mem_cons] at he
            cases he with
            | inl hh => subst hh; simp
            | inr ht => exact hvc e ht
          · intro e he
            simp only [List.mem_cons] at he
            cases he with
            | inl hh => subst hh; simp
            | inr ht => exact hvb e ht
          · intro e he hever a ha
            simp only [List.mem_cons] at he
            cases he with
            | inl hh =>
                subst hh
                simp only at ha
                exact hpage a ha
            | inr ht => exact hcc e ht hever a ha
          · intro e he hever a ha
            simp only [List.mem_cons] at he
            cases he with
            | inl hh =>
                subst hh
                simp only at ha
                exact buildBundle_unseen sys.stats sys.engine u a ha
            | inr ht => exact hcb e ht hever a ha

/-- Apply a sequence of feed calls (user, offset, limit), keeping only
the evolving serving state. -/
def applyFeedCalls (sys : SysState) (calls : List (String × Nat × Nat)) :
    SysState :=
  calls.foldl (fun s c => (getPage s c.1 c.2.1 c.2.2).2) sys

/-- Feed calls never change the State Store. -/
theorem applyFeedCalls_engine (sys : SysState)
    (calls : List (String × Nat × Nat)) :
    (applyFeedCalls sys calls).engine = sys.engine := by
  induction calls generalizing sys with
  | nil => rfl
  | cons c cs ih =>
      unfold applyFeedCalls at ih ⊢
      simp only [List.foldl_cons]
      rw [ih, getPage_engine]

/-- Feed calls preserve well-formedness. -/
theorem applyFeedCalls_Wf (sys : SysState)
    (calls : List (String × Nat × Nat)) (hwf : Wf sys) :
    Wf (applyFeedCalls sys calls) := by
  induction calls generalizing sys with
  | nil => exact hwf
  | cons c cs ih =>
      unfold applyFeedCalls at ih ⊢
      simp only [List.foldl_cons]
      exact ih _ (getPage_Wf sys c.1 c.2.1 c.2.2 hwf)

/-- The write result of the interaction path is exactly the State Store
write result (the pipeline publish cannot change or fail it). -/
theorem handleInteraction_snd (sys : SysState) (i : Interaction) :
    (handleInteraction sys i).2 = (recordInteraction sys.engine i).2 := by
  unfold handleInteraction
  cases hr : recordInteraction sys.engine i with
  | mk e2 res => cases res <;> simp [hr]

/-- An accepted interaction write preserves well-formedness and marks
the interacted article as seen. -/
theorem handleInteraction_ok_Wf (sys : SysState) (i : Interaction)
    (hwf : Wf sys) (hok : (handleInteraction sys i).2 = .ok) :
    Wf (handleInteraction sys i).1 ∧
    (i.user, i.article) ∈ (handleInteraction sys i).1.engine.seen := by
  obtain ⟨hvc, hvb, hcc, hcb⟩ := hwf
  have hrok : (recordInteraction sys.engine i).2 = .ok := by
    rw [← handleInteraction_snd]; exact hok
  have hacc : writeAccepted sys.engine i = true :=
    (recordInteraction_snd_ok sys.engine i).1 hrok
  have hfst : (recordInteraction sys.engine i).1 =
      commitInteraction sys.engine i := by
    rw [recordInteraction_fst, hacc]
    simp
  have hsys : (handleInteraction sys i).1 =
      { sys with
        engine := commitInteraction sys.engine i
        pipeline := publish sys.pipeline (eventOf i) } := by
    rw [handleInteraction_fst, hrok]
    simp [hfst]
  rw [hsys]
  refine ⟨⟨?_, ?_, ?_, ?_⟩, ?_⟩
  · intro e he
    exact le_trans (hvc e he) (currentVersion_commit_le sys.engine i e.1.1)
  · intro e he
    exact le_trans (hvb e he) (currentVersion_commit_le sys.engine i e.1.1)
  · intro e he hever a ha
    by_cases heu : e.1.1 = i.user
    · exfalso
      have hbd := hvc e he
      rw [heu] at hbd hever
      rw [currentVersion_commit_self] at hever
      omega
    · rw [currentVersion_commit_ne sys.engine i e.1.1 heu] at hever
      have hold := hcc e he hever a ha
      simp only [commitInteraction, List.mem_cons]
      intro hmem
      cases hmem with
      | inl hh =>
          rw [Prod.mk.injEq] at hh
          exact heu hh.1
      | inr ht => exact hold ht
  · intro e he hever a ha
    by_cases heu : e.1.1 = i.user
    · exfalso
      have hbd := hvb e he
      rw [heu] at hbd hever
      rw [currentVersion_commit_self] at hever
      omega
    · rw [currentVersion_commit_ne sys.engine i e.1.1 heu] at hever
      have hold := hcb e he hever a ha
      simp only [commitInteraction, List.mem_cons]
      intro hmem
      cases hmem with
      | inl hh =>
          rw [Prod.mk.injEq] at hh
          exact heu hh.1
      | inr ht => exact hold ht
  · exact commit_seen_mem sys.engine i
/-- Explore without `include_seen` never returns a seen article. -/
theorem explorePage_excludes_seen (sys : SysState) (u subj : String)
    (off lim : Nat) :
    ∀ a ∈ explorePage sys u subj false off lim,
      ¬ (u, a.id) ∈ sys.engine.seen := by
  intro a ha
  unfold explorePage at ha
  simp only [Bool.false_eq_true, if_false] at ha
  have hmem := List.mem_of_mem_drop (List.mem_of_mem_take ha)
  rw [List.mem_filter] at hmem
  simpa using hmem.2

/-- Translated from src/unnamed/part_000 (`FeedItem`): a feed item as the
client sees it. -/
structure FeedItemC where
  id : String
  title : String
  subject : String
  summary : String
  created_at : String
  url : String
  source : String
  score : ℚ
  is_sponsored : Option Bool
  deriving DecidableEq

/-- Translated from src/frontend-app/components/feed-app.tsx (`track`):
after a successful interaction the client removes the interacted article
from both the feed item list and the catalog item list
(`prev.filter((x) => x.id !== articleId)` on each). -/
def trackRemoveArticle (items catalogItems : List FeedItemC)
    (articleId : String) : List FeedItemC × List FeedItemC :=
  (items.filter (fun x => ¬ x.id = articleId),
   catalogItems.filter (fun x => ¬ x.id = articleId))

/-- C3: once an interaction by a user on an article has been recorded,
no subsequent feed call for that user returns the article, across any
further sequence of feed calls (the article may reappear only through
explore with `include_seen = true` — with `include_seen = false` explore
also excludes it); and the client's `track` mirrors the exclusion by
removing the interacted article from both its feed and catalog lists. -/
theorem interacted_article_never_in_feed (sys : SysState)
    (i : Interaction) (hwf : Wf sys)
    (hok : (handleInteraction sys i).2 = .ok) :
    ∀ calls : List (String × Nat × Nat),
      (∀ off lim a,
        a ∈ (getPage (applyFeedCalls (handleInteraction sys i).1 calls)
              i.user off lim).1 → a.id ≠ i.article) ∧
      (∀ subj off lim a,
        a ∈ explorePage (applyFeedCalls (handleInteraction sys i).1 calls)
              i.user subj false off lim → a.id ≠ i.article) ∧
      (∀ items catalogItems x,
        (x ∈ (trackRemoveArticle items catalogItems i.article).1 →
          x.id ≠ i.article) ∧
        (x ∈ (trackRemoveArticle items catalogItems i.article).2 →
          x.id ≠ i.article)) := by
  intro calls
  obtain ⟨hwf1, hseen⟩ := handleInteraction_ok_Wf sys i hwf hok
  have hwf2 := applyFeedCalls_Wf (handleInteraction sys i).1 calls hwf1
  have hEng := applyFeedCalls_engine (handleInteraction sys i).1 calls
  have hseen2 : (i.user, i.article) ∈
      (applyFeedCalls (handleInteraction sys i).1 calls).engine.seen := by
    rw [hEng]
    exact hseen
  refine ⟨?_, ?_, ?_⟩
  · intro off lim a ha hid
    have hnot := getPage_excludes_seen _ i.user off lim hwf2 a ha
    rw [hid] at hnot
    exact hnot hseen2
  · intro subj off lim a ha hid
    have hnot := explorePage_excludes_seen _ i.user subj off lim a ha
    rw [hid] at hnot
    exact hnot hseen2
  · intro items catalogItems x
    constructor
    · intro hx
      unfold trackRemoveArticle at hx
      rw [List.mem_filter] at hx
      simpa using hx.2
    · intro hx
      unfold trackRemoveArticle at hx
      rw [List.mem_filter] at hx
      simpa using hx.2

/-- A concrete serving system for the C3 witness: one free-tier user,
two articles, empty caches and statistics. -/
def feedScenarioSys : SysState :=
  { engine :=
      { users := [u1Rec]
        articles :=
          [{ id := "a1", subject := "LLMs", title := "A1", createdAt := 10,
             sponsored := false },
           { id := "a2", subject := "RAG", title := "A2", createdAt := 11,
             sponsored := false }]
        interactions := []
        seen := []
        version := [] }
    stats := []
    bundles := []
    cache := []
    pipeline := { queue := [], capacity := 8, dropped := 0, processed := 0 } }

/-- Witness for C3: after `u1` likes article `a1`, a feed page for `u1`
contains no article with id `a1`. -/
theorem interacted_article_never_in_feed_witness :
    Wf feedScenarioSys ∧
    (handleInteraction feedScenarioSys (likeAt "a1" 1)).2 = .ok ∧
    (∀ a ∈ (getPage
        (applyFeedCalls (handleInteraction feedScenarioSys (likeAt "a1" 1)).1 [])
        "u1" 0 5).1, a.id ≠ "a1") :=
  ⟨by simp [Wf, feedScenarioSys], by decide,
    fun a ha =>
      (interacted_article_never_in_feed feedScenarioSys (likeAt "a1" 1)
        (by simp [Wf, feedScenarioSys]) (by decide) []).1 0 5 a ha⟩
/-- Feed focus modes (src/unnamed/part_000, `focus_mode`). -/
inductive FocusMode where
  | strict
  | balanced
  | discovery
  deriving DecidableEq

/-- Translated from src/frontend-app/components/feed-app.tsx (focus
preview in `FeedApp`): the core share of the target topic mix —
`strict ? 0.85 : discovery ? 0.55 : 0.7`. -/
def coreShare : FocusMode → ℚ
  | .strict => 85 / 100
  | .discovery => 55 / 100
  | .balanced => 70 / 100

/-- Translated from src/frontend-app/components/feed-app.tsx: the
adjacent share of the target topic mix —
`strict ? 0.12 : discovery ? 0.25 : 0.2`. -/
def adjacentShare : FocusMode → ℚ
  | .strict => 12 / 100
  | .discovery => 25 / 100
  | .balanced => 20 / 100

/-- Translated from src/frontend-app/components/feed-app.tsx: the
frontier share of the target topic mix —
`strict ? 0.03 : discovery ? 0.2 : 0.1`. -/
def frontierShare : FocusMode → ℚ
  | .strict => 3 / 100
  | .discovery => 20 / 100
  | .balanced => 10 / 100

/-- C9: for each focus mode the target topic-mix shares over
{core, adjacent, frontier} are the documented values
(strict 0.85/0.12/0.03, balanced 0.7/0.2/0.1, discovery
0.55/0.25/0.2), are nonnegative and sum to 1, the core share is
strictly ordered strict > balanced > discovery, and the frontier share
strictly ordered discovery > balanced > strict. -/
theorem focus_target_mix_distribution :
    (coreShare .strict = 85 / 100 ∧ adjacentShare .strict = 12 / 100 ∧
      frontierShare .strict = 3 / 100) ∧
    (coreShare .balanced = 70 / 100 ∧ adjacentShare .balanced = 20 / 100 ∧
      frontierShare .balanced = 10 / 100) ∧
    (coreShare .discovery = 55 / 100 ∧ adjacentShare .discovery = 25 / 100 ∧
      frontierShare .discovery = 20 / 100) ∧
    (∀ m, coreShare m + adjacentShare m + frontierShare m = 1) ∧
    (∀ m, 0 ≤ coreShare m ∧ 0 ≤ adjacentShare m ∧ 0 ≤ frontierShare m) ∧
    (coreShare .discovery < coreShare .balanced ∧
      coreShare .balanced < coreShare .strict) ∧
    (frontierShare .strict < frontierShare .balanced ∧
      frontierShare .balanced < frontierShare .discovery) := by
  refine ⟨⟨rfl, rfl, rfl⟩, ⟨rfl, rfl, rfl⟩, ⟨rfl, rfl, rfl⟩, ?_, ?_, ?_, ?_⟩
  · intro m
    cases m <;> norm_num [coreShare, adjacentShare, frontierShare]
  · intro m
    cases m <;> norm_num [coreShare, adjacentShare, frontierShare]
  · norm_num [coreShare]
  · norm_num [frontierShare]

/-- Translated from src/unnamed/part_000 (`FeedResponse`), restricted to
the two exploration-score fields: the canonical
`exploration_subject_scores` and its deprecated legacy alias
`bandit_subject_scores`, both optional (subject-to-score maps are
rendered as association lists). -/
structure FeedResponseScores where
  exploration_subject_scores : Option (List (String × ℚ))
  bandit_subject_scores : Option (List (String × ℚ))
  deriving DecidableEq

/-- Translated from src/frontend-app/components/feed-app.tsx
(`hydrateFeed`): `feed.exploration_subject_scores ??
feed.bandit_subject_scores ?? \x7b\x7d`. -/
def hydrateFeedScores (r : FeedResponseScores) : List (String × ℚ) :=
  r.exploration_subject_scores.getD (r.bandit_subject_scores.getD [])

/-- Translated from src/frontend-app/components/feed-app.tsx (`track`,
refresh of the diagnostics after an interaction): the same
canonical-or-alias read. -/
def trackScores (r : FeedResponseScores) : List (String × ℚ) :=
  r.exploration_subject_scores.getD (r.bandit_subject_scores.getD [])

/-- Translated from src/frontend-app/components/feed-app.tsx
(`submitOnboarding`): the same canonical-or-alias read. -/
def submitOnboardingScores (r : FeedResponseScores) : List (String × ℚ) :=
  r.exploration_subject_scores.getD (r.bandit_subject_scores.getD [])

/-- Translated from src/frontend-app/components/feed-app.tsx
(`handleFocusModeChange`): the same canonical-or-alias read. -/
def focusModeChangeScores (r : FeedResponseScores) : List (String × ℚ) :=
  r.exploration_subject_scores.getD (r.bandit_subject_scores.getD [])

/-- C8: at every place the client reads a feed response, the exploration
scores it stores equal the canonical `exploration_subject_scores` field
when present, otherwise the legacy alias `bandit_subject_scores` when
present, otherwise the empty map — the canonical field always takes
precedence over the deprecated alias. -/
theorem exploration_scores_precedence (r : FeedResponseScores) :
    (∀ m, r.exploration_subject_scores = some m →
      hydrateFeedScores r = m ∧ trackScores r = m ∧
      submitOnboardingScores r = m ∧ focusModeChangeScores r = m) ∧
    (∀ m, r.exploration_subject_scores = none →
      r.bandit_subject_scores = some m →
      hydrateFeedScores r = m ∧ trackScores r = m ∧
      submitOnboardingScores r = m ∧ focusModeChangeScores r = m) ∧
    (r.exploration_subject_scores = none →
      r.bandit_subject_scores = none →
      hydrateFeedScores r = [] ∧ trackScores r = [] ∧
      submitOnboardingScores r = [] ∧ focusModeChangeScores r = []) := by
  refine ⟨?_, ?_, ?_⟩
  · intro m hm
    simp [hydrateFeedScores, trackScores, submitOnboardingScores,
      focusModeChangeScores, hm]
  · intro m hc hm
    simp [hydrateFeedScores, trackScores, submitOnboardingScores,
      focusModeChangeScores, hc, hm]
  · intro hc hm
    simp [hydrateFeedScores, trackScores, submitOnboardingScores,
      focusModeChangeScores, hc, hm]

/-- Witness for C8: on a response carrying both fields, every read site
returns the canonical field, not the alias. -/
theorem exploration_scores_precedence_witness :
    ({ exploration_subject_scores := some [("LLMs", 1)],
       bandit_subject_scores := some [("RAG", 2)] } :
        FeedResponseScores).exploration_subject_scores =
      some [("LLMs", 1)] ∧
    hydrateFeedScores
      { exploration_subject_scores := some [("LLMs", 1)],
        bandit_subject_scores := some [("RAG", 2)] } = [("LLMs", 1)] :=
  ⟨rfl,
    ((exploration_scores_precedence
      { exploration_subject_scores := some [("LLMs", 1)],
        bandit_subject_scores := some [("RAG", 2)] }).1
      [("LLMs", 1)] rfl).1⟩
/-- Translated from src/frontend-app/components/feed-app.tsx
(`parseRetryAfterSeconds`): the regex captures the digit run of the
`"retry_after_seconds"` field from the error text (`none` when the field
is absent); an absent or non-positive captured value defaults to 5.  A
digit run is a nonnegative integer, so the JavaScript finiteness check
`Number.isFinite(v)` can only fail for astronomically long digit runs;
the captured value is modelled as a natural number. -/
def parseRetryAfterSeconds (captured : Option Nat) : Nat :=
  match captured with
  | none => 5
  | some v => if 0 < v then v else 5

/-- Translated from src/frontend-app/components/feed-app.tsx (the "429"
branches of `hydrateFeed` and `runCatalogSearch`): on a rate-limit
error the client sets
`rateLimitedUntilMs = Date.now() + retryAfterSeconds * 1000`. -/
def rateLimitedUntilAfter429 (now : Nat) (captured : Option Nat) : Nat :=
  now + parseRetryAfterSeconds captured * 1000

/-- Translated from src/frontend-app/components/feed-app.tsx
(`hydrateFeed` entry guards): the call issues a request only when the
rate-limit window has passed (`Date.now() < rateLimitedUntilMs` returns
early), a user is selected, no load is in flight, and there is more to
load or a reset was requested. -/
def hydrateFeedIssuesRequest (now rateLimitedUntilMs : Nat)
    (hasUser loading hasMore reset : Bool) : Bool :=
  if now < rateLimitedUntilMs then false
  else if !hasUser || loading || (!hasMore && !reset) then false
  else true

/-- Translated from src/frontend-app/components/feed-app.tsx
(`runCatalogSearch` entry guards): the call issues a request only when
the rate-limit window has passed, a user is selected and no catalog load
is in flight. -/
def runCatalogSearchIssuesRequest (now rateLimitedUntilMs : Nat)
    (hasUser catalogLoading : Bool) : Bool :=
  if now < rateLimitedUntilMs then false
  else if !hasUser || catalogLoading then false
  else true

/-- C7: on a "429" failure the client computes the retry delay from the
`retry_after_seconds` field of the error text, defaulting to 5 seconds
when the field is absent or not positive, so the delay is always
positive; and until that delay has elapsed neither `hydrateFeed` nor
`runCatalogSearch` issues any request. -/
theorem retry_delay_blocks_requests (captured : Option Nat) (now : Nat) :
    0 < parseRetryAfterSeconds captured ∧
    (∀ t, t < rateLimitedUntilAfter429 now captured →
      (∀ hasUser loading hasMore reset,
        hydrateFeedIssuesRequest t (rateLimitedUntilAfter429 now captured)
          hasUser loading hasMore reset = false) ∧
      (∀ hasUser catalogLoading,
        runCatalogSearchIssuesRequest t
          (rateLimitedUntilAfter429 now captured)
          hasUser catalogLoading = false)) := by
  constructor
  · cases captured with
    | none => decide
    | some v =>
        unfold parseRetryAfterSeconds
        by_cases h : 0 < v
        · simp [h]
        · norm_num [h]
  · intro t ht
    constructor
    · intro hasUser loading hasMore reset
      unfold hydrateFeedIssuesRequest
      simp [ht]
    · intro hasUser catalogLoading
      unfold runCatalogSearchIssuesRequest
      simp [ht]

/-- Witness for C7: with no `retry_after_seconds` field in the error
text, the delay defaults to 5 seconds and a feed attempt 1 millisecond
before the deadline issues no request. -/
theorem retry_delay_blocks_requests_witness :
    4999 < rateLimitedUntilAfter429 0 none ∧
    hydrateFeedIssuesRequest 4999 (rateLimitedUntilAfter429 0 none)
      true false true true = false :=
  ⟨by decide,
    ((retry_delay_blocks_requests none 0).2 4999 (by decide)).1
      true false true true⟩

/-- Translated from src/frontend/script.js (`mountCard`, link-click
handler): the dwell reported with the `view` interaction is
`Math.max(1, (performance.now() - inViewStartedAt) / 1000)`. -/
def linkClickDwellSeconds (elapsedMs : ℚ) : ℚ :=
  max 1 (elapsedMs / 1000)

/-- Translated from src/frontend/script.js (`mountCard`, action-button
handler): the dwell reported with a like/save/share/skip interaction is
the same `Math.max(1, (performance.now() - inViewStartedAt) / 1000)`. -/
def buttonActionDwellSeconds (elapsedMs : ℚ) : ℚ :=
  max 1 (elapsedMs / 1000)

/-- C10: every interaction submitted by the legacy client carries
`dwell_seconds ≥ 1`: for both link-click views and
like/save/share/skip button actions the dwell is clamped to at least 1
before being sent, so a zero or near-zero dwell is never reported. -/
theorem legacy_client_dwell_at_least_one (elapsedMs : ℚ) :
    1 ≤ linkClickDwellSeconds elapsedMs ∧
    1 ≤ buttonActionDwellSeconds elapsedMs :=
  ⟨le_max_left 1 (elapsedMs / 1000), le_max_left 1 (elapsedMs / 1000)⟩
/-- Modelled from the spec: the exploration model's per-user state over
the reals — the subject taxonomy, per-subject pull counts and cumulative
rewards (ExplorationStat, §3 and §4.3). -/
structure ExplorationUser where
  subjects : List String
  pullCount : String → Nat
  cumReward : String → ℝ

/-- Modelled from the spec: the derived mean reward of a subject, zero
when the subject has no pulls. -/
noncomputable def meanReward (u : ExplorationUser) (s : String) : ℝ :=
  if u.pullCount s = 0 then 0 else u.cumReward s / (u.pullCount s : ℝ)

/-- Modelled from the spec: `totalPulls` is the sum of pull counts
across all subjects for the user. -/
def totalPulls (u : ExplorationUser) : Nat :=
  (u.subjects.map u.pullCount).sum

/-- Modelled from the spec: the upper-confidence-bound uncertainty bonus
`c * sqrt(ln(totalPulls + 1) / (pullCount + 1))` (§4.3). -/
noncomputable def ucbBonus (c : ℝ) (total pulls : Nat) : ℝ :=
  c * Real.sqrt (Real.log ((total : ℝ) + 1) / ((pulls : ℝ) + 1))

/-- Modelled from the spec: `explorationScore(user, subject) =
meanReward + c * sqrt(ln(totalPulls + 1) / (pullCount + 1))`. -/
noncomputable def explorationScore (c : ℝ) (u : ExplorationUser)
    (s : String) : ℝ :=
  meanReward u s + ucbBonus c (totalPulls u) (u.pullCount s)

/-- C5: for a user with zero recorded interactions (every per-subject
pull count is zero) the exploration score is defined — its denominator
`pullCount + 1` is never zero — and is equal across all subjects, and
that common value is the maximal bonus value achievable for that user:
no pull count yields a larger bonus at the user's total-pull count. -/
theorem explorationScore_zero_history (c : ℝ) (u : ExplorationUser)
    (h0 : ∀ s, u.pullCount s = 0) :
    (∀ s, ((u.pullCount s : ℝ) + 1) ≠ 0) ∧
    (∀ s t, explorationScore c u s = explorationScore c u t) ∧
    (∀ s n, ucbBonus c (totalPulls u) n ≤ explorationScore c u s) := by
  have htot : totalPulls u = 0 := by
    unfold totalPulls
    apply List.sum_eq_zero
    intro x hx
    obtain ⟨s, hs, hxs⟩ := List.mem_map.mp hx
    rw [← hxs]
    exact h0 s
  have hbonus : ∀ n, ucbBonus c (totalPulls u) n = 0 := by
    intro n
    unfold ucbBonus
    rw [htot]
    simp
  have hscore : ∀ s, explorationScore c u s = 0 := by
    intro s
    unfold explorationScore meanReward
    rw [h0 s, hbonus 0]
    simp
  refine ⟨?_, ?_, ?_⟩
  · intro s
    have : (0 : ℝ) < (u.pullCount s : ℝ) + 1 := by positivity
    exact ne_of_gt this
  · intro s t
    rw [hscore s, hscore t]
  · intro s n
    rw [hscore s, hbonus n]

/-- A user with two subjects and no recorded interactions, for the C5
witness. -/
noncomputable def zeroHistoryUser : ExplorationUser :=
  { subjects := ["LLMs", "RAG"]
    pullCount := fun _ => 0
    cumReward := fun _ => 0 }

/-- Witness for C5: the zero-history user scores equally on both of its
subjects. -/
theorem explorationScore_zero_history_witness :
    (∀ s, zeroHistoryUser.pullCount s = 0) ∧
    explorationScore 1 zeroHistoryUser "LLMs" =
      explorationScore 1 zeroHistoryUser "RAG" :=
  ⟨fun _ => rfl,
    (explorationScore_zero_history 1 zeroHistoryUser (fun _ => rfl)).2.1
      "LLMs" "RAG"⟩

end DailyLens
